import Mathlib

set_option maxRecDepth 8000

/-!
Verification of the method-chaining measurement pipeline: comment
stripping, coarse tokenization, recursive chain-length detection, and
histogram aggregation.  Text is modelled as `List Char`, the token
stream as `List Token`, and the recursive detector as a fuelled
transition function whose fuel is discharged by the input length.
-/

/-- States of the comment-stripping scanner (enum `State` in `remove_comments`). -/
inductive RCState
  | Basic | SlashFound | LineComment | BlockComment | StarFoundInComment
deriving DecidableEq, Repr

open RCState in
/-- One transition of the comment scanner: next state and the characters
emitted for this input character, mirroring the `match` arms of the
source's `remove_comments` loop. -/
def rcStep : RCState → Char → RCState × List Char
  | Basic, c => if c = '/' then (SlashFound, []) else (Basic, [c])
  | SlashFound, c =>
      if c = '/' then (LineComment, [])
      else if c = '*' then (BlockComment, [])
      else (Basic, ['/', c])
  | LineComment, c =>
      if c = '\n' ∨ c = '\r' then (Basic, []) else (LineComment, [])
  | BlockComment, c =>
      if c = '*' then (StarFoundInComment, []) else (BlockComment, [])
  | StarFoundInComment, c =>
      if c = '/' then (Basic, [])
      else if c = '*' then (StarFoundInComment, [])
      else (BlockComment, [])

/-- Output accumulated by the comment scanner started in state `st`. -/
def removeCommentsAux (st : RCState) : List Char → List Char
  | [] => []
  | c :: rest => (rcStep st c).2 ++ removeCommentsAux (rcStep st c).1 rest

/-- Final state of the comment scanner started in state `st`. -/
def rcRun (st : RCState) : List Char → RCState
  | [] => st
  | c :: rest => rcRun (rcStep st c).1 rest

/-- `remove_comments` from the source: strip line comments and block
comments from the input, character by character, starting in `Basic`. -/
def remove_comments (s : List Char) : List Char := removeCommentsAux RCState.Basic s

/-- Token categories produced by the tokenizer (enum `Token` in the source). -/
inductive Token
  | Punctuation | String | Dot | OpenParen | CloseParen | OpenBracket | CloseBracket
deriving DecidableEq, Repr

/-- Whitespace characters recognised by the tokenizer's first arm. -/
def isSpaceChar (c : Char) : Bool :=
  c == ' ' || c == '\t' || c == '\n' || c == '\r'

/-- The tokenizer's fixed punctuation set (its own arm in the source `match`). -/
def isPunctChar (c : Char) : Bool :=
  c == '*' || c == '/' || c == '+' || c == '-' || c == '%' ||
  c == Char.ofNat 92 ||
  c == ';' || c == ',' || c == '@' || c == ':' || c == '=' ||
  c == '{' || c == '}' || c == '<' || c == '>' ||
  c == '!' || c == '~' || c == '?' || c == '&' || c == '|' || c == '^' ||
  c == Char.ofNat 34 || c == Char.ofNat 39

/-- A character reaching the tokenizer's catch-all arm: it is appended to
the pending run and eventually becomes part of a `String` token. -/
def isWordChar (c : Char) : Bool :=
  !(isSpaceChar c || c == '.' || c == '(' || c == ')' ||
    c == '[' || c == ']' || isPunctChar c)

/-- The tokenizer's `push!(Token::String)` macro: emit a `String` token
only when the pending run is nonempty. -/
def flushPending (pending : List Char) : List Token :=
  if pending.isEmpty then [] else [Token.String]

/-- The tokenizer loop (`tokenize` in the source), carrying the pending
run of word characters.  At end of input the pending run is dropped: the
final push in the source is commented out. -/
def tokenizeAux (pending : List Char) : List Char → List Token
  | [] => []
  | c :: rest =>
    if isSpaceChar c then flushPending pending ++ tokenizeAux [] rest
    else if c == '.' then flushPending pending ++ [Token.Dot] ++ tokenizeAux [] rest
    else if c == '(' then flushPending pending ++ [Token.OpenParen] ++ tokenizeAux [] rest
    else if c == ')' then flushPending pending ++ [Token.CloseParen] ++ tokenizeAux [] rest
    else if c == '[' then flushPending pending ++ [Token.OpenBracket] ++ tokenizeAux [] rest
    else if c == ']' then flushPending pending ++ [Token.CloseBracket] ++ tokenizeAux [] rest
    else if isPunctChar c then flushPending pending ++ [Token.Punctuation] ++ tokenizeAux [] rest
    else tokenizeAux (pending ++ [c]) rest

/-- `tokenize` from the source: start with an empty pending run. -/
def tokenize (s : List Char) : List Token := tokenizeAux [] s

-- Sanity check: the source's tokenizer unit test.
example :
    tokenize ("a(); bb(); c.dddd().e(); main ".toList ++ ['{', '}']) =
      [Token.String, Token.OpenParen, Token.CloseParen, Token.Punctuation,
       Token.String, Token.OpenParen, Token.CloseParen, Token.Punctuation,
       Token.String, Token.Dot,
       Token.String, Token.OpenParen, Token.CloseParen, Token.Dot,
       Token.String, Token.OpenParen, Token.CloseParen, Token.Punctuation,
       Token.String, Token.Punctuation, Token.Punctuation] := by rfl

-- Sanity check: the source's comment-removal unit test.
example :
    remove_comments "// aaaaa\na/*   \n\n/**/*/b//c\nd".toList = "a*/bd".toList := by rfl

/-- States of the chain detector (enum `State` in
`sloppy_method_chain_detection_rec`). -/
inductive DState
  | Start | Potential | ParenEnd | Chain
deriving DecidableEq, Repr

/-- What one arm of the detector's `match` does: stop (the `stop!` macro),
move to a state, flush the counter and move to a state (wildcard arms),
or recurse into a nested scope and continue in a state, incrementing the
counter when the arm also runs `method_found!`. -/
inductive DAction
  | stop
  | goto (s : DState)
  | flushGoto (s : DState)
  | recurseTo (s : DState) (incr : Bool)
deriving DecidableEq, Repr

/-- The detector's transition table, one constructor per `match` arm of
`sloppy_method_chain_detection_rec` in the source. -/
def dTransition : DState → Token → DAction
  | .Start, .OpenParen => .recurseTo .Start false
  | .Start, .OpenBracket => .recurseTo .Start false
  | .Start, .CloseParen => .stop
  | .Start, .CloseBracket => .stop
  | .Start, .String => .goto .Potential
  | .Start, _ => .goto .Start
  | .Potential, .OpenParen => .recurseTo .ParenEnd true
  | .Potential, .OpenBracket => .recurseTo .ParenEnd false
  | .Potential, .CloseParen => .stop
  | .Potential, .CloseBracket => .stop
  | .Potential, .Dot => .goto .Chain
  | .Potential, _ => .flushGoto .Start
  | .ParenEnd, .OpenParen => .recurseTo .Start false
  | .ParenEnd, .OpenBracket => .recurseTo .Start false
  | .ParenEnd, .CloseParen => .stop
  | .ParenEnd, .CloseBracket => .stop
  | .ParenEnd, .Dot => .goto .Chain
  | .ParenEnd, _ => .flushGoto .Start
  | .Chain, .OpenParen => .recurseTo .Start false
  | .Chain, .OpenBracket => .recurseTo .Start false
  | .Chain, .CloseParen => .stop
  | .Chain, .CloseBracket => .stop
  | .Chain, .String => .goto .Potential
  | .Chain, _ => .flushGoto .Start

/-- The `chain_complete!` macro: push the counter when nonzero. -/
def chainComplete (counter : Nat) (counters : List Nat) : List Nat :=
  if counter = 0 then counters else counters ++ [counter]

/-- The detector loop of `sloppy_method_chain_detection_rec`, fuelled.
The loop state is the current `DState`, the chain counter and the
accumulated list of completed chain lengths; the result is that list
together with the tokens left in the deque for the caller.  One unit of
fuel is spent per consumed token, so any fuel of at least the input
length computes the recursion exactly (`detectF_fuel_irrel` below). -/
def detectF : Nat → DState → Nat → List Nat → List Token → List Nat × List Token
  | 0, _, counter, counters, ts => (chainComplete counter counters, ts)
  | _ + 1, _, counter, counters, [] => (chainComplete counter counters, [])
  | fuel + 1, s, counter, counters, t :: rest =>
    match dTransition s t with
    | .stop => (chainComplete counter counters, rest)
    | .goto s2 => detectF fuel s2 counter counters rest
    | .flushGoto s2 => detectF fuel s2 0 (chainComplete counter counters) rest
    | .recurseTo s2 incr =>
      let r := detectF fuel DState.Start 0 [] rest
      detectF fuel s2 (if incr then counter + 1 else counter) (counters ++ r.1) r.2

/-- `sloppy_method_chain_detection_rec` from the source, at the top-level
entry point: fresh state, zero counter, empty output. -/
def sloppy_method_chain_detection_rec (ts : List Token) : List Nat :=
  (detectF ts.length DState.Start 0 [] ts).1

/-- One step of the source's histogram fold:
`accumulator.entry(chain_length).or_insert(0) += 1` on a `BTreeMap`
modelled as an association list sorted strictly by key. -/
def btreeIncr : List (Nat × Nat) → Nat → List (Nat × Nat)
  | [], k => [(k, 1)]
  | (k2, v) :: rest, k =>
    if k < k2 then (k, 1) :: (k2, v) :: rest
    else if k = k2 then (k2, v + 1) :: rest
    else (k2, v) :: btreeIncr rest k

/-- `method_chain_histogram` from the `MethodChaining` trait: fold the
chain lengths into a length-to-count map, starting from the empty map. -/
def method_chain_histogram (counts : List Nat) : List (Nat × Nat) :=
  counts.foldl btreeIncr []

/-- `sloppy_method_chain_detection` from the source: run the detector and
fold its output into a histogram (the source repeats the same fold). -/
def sloppy_method_chain_detection (ts : List Token) : List (Nat × Nat) :=
  method_chain_histogram (sloppy_method_chain_detection_rec ts)

-- Sanity checks: the source's seven chain-detection unit tests.
example : sloppy_method_chain_detection [.String, .OpenParen, .CloseParen] = [(1, 1)] := by rfl

example : sloppy_method_chain_detection
    [.String, .OpenParen, .CloseParen, .Dot, .String, .OpenParen, .CloseParen] = [(2, 1)] := by rfl

example : sloppy_method_chain_detection
    [.String, .OpenParen, .CloseParen, .Dot, .String, .OpenParen, .CloseParen, .Dot,
     .String, .OpenParen, .CloseParen] = [(3, 1)] := by rfl

example : sloppy_method_chain_detection
    [.String, .OpenParen, .CloseParen, .Dot, .String, .Dot,
     .String, .OpenParen, .CloseParen] = [(2, 1)] := by rfl

example : sloppy_method_chain_detection
    [.String, .OpenParen, .CloseParen, .Dot, .String, .Dot,
     .String, .OpenParen, .CloseParen, .Punctuation,
     .String, .OpenParen, .CloseParen] = [(1, 1), (2, 1)] := by rfl

example : sloppy_method_chain_detection
    [.String, .OpenParen,
       .String, .OpenParen, .CloseParen, .Punctuation,
       .String, .OpenParen, .CloseParen,
     .CloseParen, .Dot,
     .String, .Dot,
     .String, .OpenParen,
       .String, .OpenParen, .CloseParen, .Punctuation,
       .String, .OpenParen, .CloseParen,
     .CloseParen, .Punctuation,
     .String, .OpenParen, .CloseParen] = [(1, 5), (2, 1)] := by rfl

example : sloppy_method_chain_detection
    [.String, .OpenParen,
       .String, .OpenParen,
         .String, .OpenParen, .CloseParen, .Dot,
         .String, .Dot,
         .String, .OpenParen, .CloseParen, .Dot,
         .String, .Dot,
         .String, .OpenParen, .CloseParen,
       .CloseParen, .Punctuation,
       .String, .OpenParen, .CloseParen,
     .CloseParen, .Dot,
     .String, .Dot,
     .String, .OpenParen,
       .String, .OpenParen, .CloseParen, .Punctuation,
       .OpenBracket,
         .String, .OpenParen, .CloseParen, .Punctuation,
         .String, .OpenParen, .CloseParen, .Punctuation,
       .CloseBracket,
       .String, .OpenParen, .CloseParen,
     .CloseParen, .Punctuation,
     .String, .OpenParen, .CloseParen] = [(1, 7), (2, 1), (3, 1)] := by rfl

/-- On empty input every fuel value finalizes the counter the same way. -/
theorem detectF_nil (fuel : Nat) (s : DState) (c : Nat) (cs : List Nat) :
    detectF fuel s c cs [] = (chainComplete c cs, []) := by
  cases fuel <;> rfl

/-- The detector only ever consumes tokens: the tokens handed back to the
caller are no more than the tokens it was given. -/
theorem detectF_rest_le (fuel : Nat) :
    ∀ (s : DState) (c : Nat) (cs : List Nat) (ts : List Token),
      (detectF fuel s c cs ts).2.length ≤ ts.length := by
  induction fuel with
  | zero => intro s c cs ts; simp [detectF]
  | succ f ih =>
    intro s c cs ts
    cases ts with
    | nil => simp [detectF]
    | cons t rest =>
      simp only [detectF]
      cases dTransition s t with
      | stop => simp only []; exact Nat.le_succ rest.length
      | goto s2 => exact le_trans (ih s2 c cs rest) (Nat.le_succ rest.length)
      | flushGoto s2 => exact le_trans (ih s2 0 _ rest) (Nat.le_succ rest.length)
      | recurseTo s2 incr =>
        refine le_trans (le_trans (ih s2 _ _ _) ?_) (Nat.le_succ rest.length)
        exact ih .Start 0 [] rest

/-- Fuel irrelevance: any two fuel budgets at least the input length run
the detector loop identically, so `sloppy_method_chain_detection_rec`
(which spends `ts.length`) computes the source's unbounded recursion. -/
theorem detectF_fuel_irrel (f1 : Nat) :
    ∀ (f2 : Nat) (s : DState) (c : Nat) (cs : List Nat) (ts : List Token),
      ts.length ≤ f1 → ts.length ≤ f2 →
      detectF f1 s c cs ts = detectF f2 s c cs ts := by
  induction f1 with
  | zero =>
    intro f2 s c cs ts h1 h2
    have : ts = [] := List.length_eq_zero.mp (Nat.le_zero.mp h1)
    subst this
    rw [detectF_nil, detectF_nil]
  | succ f ih =>
    intro f2 s c cs ts h1 h2
    cases ts with
    | nil => rw [detectF_nil, detectF_nil]
    | cons t rest =>
      obtain ⟨g, rfl⟩ : ∃ g, f2 = g + 1 := by
        cases f2 with
        | zero => simp at h2
        | succ g => exact ⟨g, rfl⟩
      have hrest1 : rest.length ≤ f := Nat.succ_le_succ_iff.mp h1
      have hrest2 : rest.length ≤ g := Nat.succ_le_succ_iff.mp h2
      simp only [detectF]
      cases dTransition s t with
      | stop => rfl
      | goto s2 => exact ih g s2 c cs rest hrest1 hrest2
      | flushGoto s2 => exact ih g s2 0 _ rest hrest1 hrest2
      | recurseTo s2 incr =>
        have hr : detectF f .Start 0 [] rest = detectF g .Start 0 [] rest :=
          ih g .Start 0 [] rest hrest1 hrest2
        rw [← hr]
        have hlen : (detectF f .Start 0 [] rest).2.length ≤ rest.length :=
          detectF_rest_le f .Start 0 [] rest
        exact ih g s2 _ _ _ (le_trans hlen hrest1) (le_trans hlen hrest2)

/-- Token pattern of one additional chained call: `.name()`. -/
def dotCallChunk : List Token := [.Dot, .String, .OpenParen, .CloseParen]

/-- Token sequence of N consecutive `name()` calls joined by dots with no
nesting: `name()` followed by N-1 repetitions of `.name()`. -/
def flatChain (n : Nat) : List Token :=
  [.String, .OpenParen, .CloseParen] ++ (List.replicate (n - 1) dotCallChunk).flatten

theorem chunkJoin_succ (k : Nat) :
    (List.replicate (k + 1) dotCallChunk).flatten =
      .Dot :: .String :: .OpenParen :: .CloseParen :: (List.replicate k dotCallChunk).flatten := by
  simp [List.replicate_succ, dotCallChunk]

theorem chunkJoin_length (k : Nat) :
    ((List.replicate k dotCallChunk).flatten).length = 4 * k := by
  induction k with
  | zero => rfl
  | succ m ih => rw [chunkJoin_succ]; simp only [List.length_cons, ih]; omega

/-- Processing the tail of a flat chain: from `ParenEnd` with a nonzero
counter `c`, k further `.name()` chunks extend the same chain, and end of
input flushes a single chain of length `c + k`. -/
theorem detectF_chunk (k : Nat) :
    ∀ (fuel c : Nat) (cs : List Nat), 4 * k ≤ fuel → 0 < c →
      detectF fuel .ParenEnd c cs ((List.replicate k dotCallChunk).flatten) =
        (cs ++ [c + k], []) := by
  induction k with
  | zero =>
    intro fuel c cs hf hc
    simp only [List.replicate, List.flatten_nil, detectF_nil, chainComplete]
    rw [if_neg (by omega)]
    simp
  | succ m ih =>
    intro fuel c cs hf hc
    obtain ⟨f1, rfl⟩ : ∃ f1, fuel = f1 + 1 := ⟨fuel - 1, by omega⟩
    obtain ⟨f2, rfl⟩ : ∃ f2, f1 = f2 + 1 := ⟨f1 - 1, by omega⟩
    obtain ⟨f3, rfl⟩ : ∃ f3, f2 = f3 + 1 := ⟨f2 - 1, by omega⟩
    obtain ⟨f4, rfl⟩ : ∃ f4, f3 = f4 + 1 := ⟨f3 - 1, by omega⟩
    rw [chunkJoin_succ]
    show detectF (f4 + 1 + 1 + 1 + 1) .ParenEnd c cs _ = _
    simp only [detectF, dTransition, chainComplete, if_pos rfl, if_true, List.append_nil]
    rw [ih (f4 + 1) (c + 1) cs (by omega) (by omega)]
    have h : c + 1 + m = c + (m + 1) := by omega
    rw [h]

/-- C1: for every N >= 1, running the chain detector on the token
sequence for N consecutive `name()` calls joined by dots with no nesting
(String, OpenParen, CloseParen, then N-1 repetitions of Dot, String,
OpenParen, CloseParen) returns exactly the one-element list [N]: one
maximal chain of length N and nothing else. -/
theorem flat_chain_detects_single_chain (n : Nat) (hn : 1 ≤ n) :
    sloppy_method_chain_detection_rec (flatChain n) = [n] := by
  obtain ⟨m, rfl⟩ : ∃ m, n = m + 1 := ⟨n - 1, by omega⟩
  have hform : flatChain (m + 1) =
      .String :: .OpenParen :: .CloseParen :: (List.replicate m dotCallChunk).flatten := by
    simp [flatChain, Nat.add_sub_cancel]
  have hlen : (flatChain (m + 1)).length = 4 * m + 1 + 1 + 1 := by
    rw [hform]
    simp only [List.length_cons, chunkJoin_length]
  unfold sloppy_method_chain_detection_rec
  rw [hlen, hform]
  simp only [detectF, dTransition, chainComplete, if_pos rfl, if_true, Nat.zero_add,
    List.nil_append, List.append_nil]
  rw [detectF_chunk m (4 * m + 1) 1 [] (by omega) (by omega)]
  simp [Nat.add_comm]

/-- Witness for C1 at N = 3: the detector returns [3] on `a().b().c()`. -/
theorem flat_chain_detects_single_chain_witness :
    1 ≤ 3 ∧ sloppy_method_chain_detection_rec (flatChain 3) = [3] :=
  ⟨by decide, flat_chain_detects_single_chain 3 (by decide)⟩

/-- C4 counterexample: on String OpenParen CloseParen OpenParen CloseParen
String OpenParen CloseParen (that is, `a()(…)c()`), the detector returns
[2], not [1, 1] and not [1].  When the second OpenParen is consumed in
state `ParenEnd`, the pending counter 1 is neither flushed at that point
(which would give [1, 1]) nor silently discarded (which would leave only
the final call's chain, [1]): it is retained, extended by the later call
site, and pushed as the single chain length 2. -/
theorem paren_end_opener_keeps_counter_cex :
    sloppy_method_chain_detection_rec
        [.String, .OpenParen, .CloseParen, .OpenParen, .CloseParen,
         .String, .OpenParen, .CloseParen] = [2] ∧
      sloppy_method_chain_detection_rec
        [.String, .OpenParen, .CloseParen, .OpenParen, .CloseParen,
         .String, .OpenParen, .CloseParen] ≠ [1] ∧
      sloppy_method_chain_detection_rec
        [.String, .OpenParen, .CloseParen, .OpenParen, .CloseParen,
         .String, .OpenParen, .CloseParen] ≠ [1, 1] := by
  refine ⟨by rfl, by decide, by decide⟩

/-- C4 amended: when an OpenParen or OpenBracket is consumed in state
`ParenEnd`, the in-progress counter is not flushed at that point, but
neither is it discarded: the detector recurses into the nested scope,
merges that scope's chains into the output, and continues from `Start`
with the same pending counter, which can be extended by a later call
site or flushed by a later chain-completing event or end of input. -/
theorem paren_end_opener_keeps_counter :
    ∀ (fuel c : Nat) (cs : List Nat) (rest : List Token),
      detectF (fuel + 1) .ParenEnd c cs (.OpenParen :: rest) =
        detectF fuel .Start c (cs ++ (detectF fuel .Start 0 [] rest).1)
          (detectF fuel .Start 0 [] rest).2 ∧
      detectF (fuel + 1) .ParenEnd c cs (.OpenBracket :: rest) =
        detectF fuel .Start c (cs ++ (detectF fuel .Start 0 [] rest).1)
          (detectF fuel .Start 0 [] rest).2 := by
  intro fuel c cs rest
  constructor <;> rfl

/-- C6: the token sequence of `a(b(), c()).d()` yields the histogram
mapping chain length 1 to two occurrences (the two inner single calls,
counted independently inside the argument scope) and chain length 2 to
one occurrence (the outer two-call chain); nested scopes do not extend
the enclosing chain. -/
theorem nested_args_histogram :
    sloppy_method_chain_detection
        [.String, .OpenParen, .String, .OpenParen, .CloseParen, .Punctuation,
         .String, .OpenParen, .CloseParen, .CloseParen, .Dot,
         .String, .OpenParen, .CloseParen] = [(1, 2), (2, 1)] ∧
      sloppy_method_chain_detection_rec
        [.String, .OpenParen, .String, .OpenParen, .CloseParen, .Punctuation,
         .String, .OpenParen, .CloseParen, .CloseParen, .Dot,
         .String, .OpenParen, .CloseParen] = [1, 1, 2] := by
  refine ⟨by rfl, by rfl⟩

/-- C9: the chain detector is total on every finite token sequence,
including unbalanced ones.  First conjunct: the fuelled loop is fuel
independent above the input length, so the recursion always terminates
and returns a list normally with the budget spent by
`sloppy_method_chain_detection_rec`.  Second conjunct: a CloseParen or
CloseBracket consumed in any state finalizes the in-progress counter
(pushing it if non-zero) and returns immediately, handing the remaining
tokens back to the caller: an unmatched closer is treated as end of
scope, never an error. -/
theorem detector_total_and_unmatched_closer :
    (∀ (f1 f2 : Nat) (s : DState) (c : Nat) (cs : List Nat) (ts : List Token),
        ts.length ≤ f1 → ts.length ≤ f2 →
        detectF f1 s c cs ts = detectF f2 s c cs ts) ∧
      (∀ (fuel : Nat) (s : DState) (c : Nat) (cs : List Nat) (rest : List Token),
        detectF (fuel + 1) s c cs (.CloseParen :: rest) = (chainComplete c cs, rest) ∧
        detectF (fuel + 1) s c cs (.CloseBracket :: rest) = (chainComplete c cs, rest)) := by
  refine ⟨detectF_fuel_irrel, ?_⟩
  intro fuel s c cs rest
  cases s <;> exact ⟨rfl, rfl⟩

/-- Witness for C9: both fuel budgets 5 and 1 suffice for the singleton
sequence holding one unmatched CloseParen, and the detector agrees. -/
theorem detector_total_and_unmatched_closer_witness :
    ([Token.CloseParen].length ≤ 5 ∧ [Token.CloseParen].length ≤ 1) ∧
      detectF 5 .Start 0 [] [Token.CloseParen] = detectF 1 .Start 0 [] [Token.CloseParen] :=
  ⟨⟨by decide, by decide⟩,
    detector_total_and_unmatched_closer.1 5 1 .Start 0 [] [Token.CloseParen]
      (by decide) (by decide)⟩

/-- Sum of the occurrence counts stored in a histogram. -/
def histTotal (m : List (Nat × Nat)) : Nat := (m.map Prod.snd).sum

theorem btreeIncr_total (m : List (Nat × Nat)) (k : Nat) :
    histTotal (btreeIncr m k) = histTotal m + 1 := by
  induction m with
  | nil => simp [btreeIncr, histTotal]
  | cons kv rest ih =>
    obtain ⟨k2, v⟩ := kv
    simp only [btreeIncr]
    split_ifs with h1 h2 <;> simp [histTotal] at ih ⊢ <;> omega

theorem btreeIncr_mem (m : List (Nat × Nat)) (k : Nat) :
    ∀ kv ∈ btreeIncr m k, kv ∈ m ∨ (kv.1 = k ∧ kv.2 = 1) ∨ (∃ v, (kv.1, v) ∈ m ∧ kv.2 = v + 1) := by
  induction m with
  | nil => intro kv h; simp [btreeIncr] at h; subst h; simp
  | cons hd rest ih =>
    obtain ⟨k2, v⟩ := hd
    intro kv h
    simp only [btreeIncr] at h
    split_ifs at h with h1 h2
    · rcases List.mem_cons.mp h with h | h
      · subst h; simp
      · exact Or.inl h
    · rcases List.mem_cons.mp h with h | h
      · subst h h2
        exact Or.inr (Or.inr ⟨v, by simp⟩)
      · exact Or.inl (List.mem_cons_of_mem _ h)
    · rcases List.mem_cons.mp h with h | h
      · exact Or.inl (by simp [h])
      · rcases ih kv h with h3 | h3 | ⟨w, hw, hv⟩
        · exact Or.inl (List.mem_cons_of_mem _ h3)
        · exact Or.inr (Or.inl h3)
        · exact Or.inr (Or.inr ⟨w, List.mem_cons_of_mem _ hw, hv⟩)

theorem btreeIncr_keys (m : List (Nat × Nat)) (k : Nat) :
    ∀ kv ∈ btreeIncr m k, kv.1 = k ∨ kv.1 ∈ m.map Prod.fst := by
  intro kv h
  rcases btreeIncr_mem m k kv h with h | h | ⟨v, hv, _⟩
  · exact Or.inr (List.mem_map_of_mem Prod.fst h)
  · exact Or.inl h.1
  · exact Or.inr (by simpa using List.mem_map_of_mem Prod.fst hv)

theorem btreeIncr_sorted (m : List (Nat × Nat)) (k : Nat)
    (h : List.Pairwise (fun a b : Nat × Nat => a.1 < b.1) m) :
    List.Pairwise (fun a b : Nat × Nat => a.1 < b.1) (btreeIncr m k) := by
  induction m with
  | nil => simp [btreeIncr]
  | cons hd rest ih =>
    obtain ⟨k2, v⟩ := hd
    rw [List.pairwise_cons] at h
    obtain ⟨hhd, hrest⟩ := h
    simp only [btreeIncr]
    split_ifs with h1 h2
    · refine List.Pairwise.cons ?_ (List.Pairwise.cons hhd hrest)
      intro b hb
      rcases List.mem_cons.mp hb with rfl | hb
      · exact h1
      · exact lt_trans h1 (hhd b hb)
    · exact List.Pairwise.cons (by simpa using hhd) hrest
    · refine List.Pairwise.cons ?_ (ih hrest)
      intro b hb
      rcases btreeIncr_keys rest k b hb with hb2 | hb2
      · omega
      · obtain ⟨⟨k3, w⟩, hmem, hfst⟩ := List.mem_map.mp hb2
        have := hhd _ hmem
        simp at hfst
        omega

theorem foldl_btreeIncr_total (counts : List Nat) :
    ∀ acc, histTotal (counts.foldl btreeIncr acc) = histTotal acc + counts.length := by
  induction counts with
  | nil => intro acc; simp
  | cons k rest ih =>
    intro acc
    simp only [List.foldl_cons, List.length_cons, ih (btreeIncr acc k), btreeIncr_total]
    omega

theorem foldl_btreeIncr_vals (counts : List Nat) :
    ∀ acc, (∀ kv ∈ acc, 1 ≤ kv.2) →
      ∀ kv ∈ counts.foldl btreeIncr acc, 1 ≤ kv.2 := by
  induction counts with
  | nil => intro acc h; simpa using h
  | cons k rest ih =>
    intro acc h
    refine ih (btreeIncr acc k) ?_
    intro kv hkv
    rcases btreeIncr_mem acc k kv hkv with h2 | h2 | ⟨v, _, hv⟩
    · exact h kv h2
    · omega
    · omega

theorem foldl_btreeIncr_keys (counts : List Nat) :
    ∀ acc, ∀ kv ∈ counts.foldl btreeIncr acc,
      kv.1 ∈ acc.map Prod.fst ∨ kv.1 ∈ counts := by
  induction counts with
  | nil => intro acc kv h; exact Or.inl (List.mem_map_of_mem Prod.fst h)
  | cons k rest ih =>
    intro acc kv h
    rcases ih (btreeIncr acc k) kv h with h2 | h2
    · obtain ⟨p, hmem, hfst⟩ := List.mem_map.mp h2
      rcases btreeIncr_keys acc k p hmem with h3 | h3
      · refine Or.inr (List.mem_cons.mpr (Or.inl ?_))
        omega
      · exact Or.inl (hfst ▸ h3)
    · exact Or.inr (List.mem_cons_of_mem k h2)

theorem foldl_btreeIncr_sorted (counts : List Nat) :
    ∀ acc, List.Pairwise (fun a b : Nat × Nat => a.1 < b.1) acc →
      List.Pairwise (fun a b : Nat × Nat => a.1 < b.1) (counts.foldl btreeIncr acc) := by
  induction counts with
  | nil => intro acc h; simpa using h
  | cons k rest ih => intro acc h; exact ih (btreeIncr acc k) (btreeIncr_sorted acc k h)

/-- C8: for every sequence of chain lengths, the histogram built by
`method_chain_histogram` satisfies: the sum of all stored counts equals
the length of the input sequence; every stored count is at least 1 and
every stored key actually occurs in the input (no entry for a length
that never occurs); and the keys are strictly ascending, hence unique
and sorted. -/
theorem histogram_invariants (counts : List Nat) :
    histTotal (method_chain_histogram counts) = counts.length ∧
      (∀ kv ∈ method_chain_histogram counts, 1 ≤ kv.2 ∧ kv.1 ∈ counts) ∧
      List.Pairwise (fun a b : Nat × Nat => a.1 < b.1) (method_chain_histogram counts) := by
  refine ⟨?_, ?_, ?_⟩
  · simpa [histTotal] using foldl_btreeIncr_total counts []
  · intro kv hkv
    refine ⟨foldl_btreeIncr_vals counts [] (by simp) kv hkv, ?_⟩
    rcases foldl_btreeIncr_keys counts [] kv hkv with h | h
    · simp at h
    · exact h
  · exact foldl_btreeIncr_sorted counts [] (by simp)

theorem tokenizeAux_all_word (w : List Char) :
    ∀ pending, (∀ c ∈ w, isWordChar c = true) → tokenizeAux pending w = [] := by
  induction w with
  | nil => intro pending _; rfl
  | cons c w2 ih =>
    intro pending h
    have hc : isWordChar c = true := h c (List.mem_cons_self c w2)
    simp only [isWordChar, Bool.not_eq_true', Bool.or_eq_false_iff] at hc
    obtain ⟨⟨⟨⟨⟨⟨h1, h2⟩, h3⟩, h4⟩, h5⟩, h6⟩, h7⟩ := hc
    simp only [tokenizeAux, h1, h2, h3, h4, h5, h6, h7, Bool.false_eq_true, if_false]
    exact ih (pending ++ [c]) fun d hd => h d (List.mem_cons_of_mem c hd)

theorem tokenizeAux_append_word (s : List Char) (w : List Char)
    (hw : ∀ c ∈ w, isWordChar c = true) :
    ∀ pending, tokenizeAux pending (s ++ w) = tokenizeAux pending s := by
  induction s with
  | nil =>
    intro pending
    simpa [tokenizeAux] using tokenizeAux_all_word w pending hw
  | cons c s2 ih =>
    intro pending
    simp only [List.cons_append, tokenizeAux, List.append_eq]
    split
    · rw [ih []]
    · split
      · rw [ih []]
      · split
        · rw [ih []]
        · split
          · rw [ih []]
          · split
            · rw [ih []]
            · split
              · rw [ih []]
              · split
                · rw [ih []]
                · rw [ih (pending ++ [c])]

/-- C2 counterexample: the input "a" ends in a non-empty pending word
run, yet the tokenizer emits no tokens at all: the pending run is not
flushed as a final String token (the final push is commented out in the
source), so the last emitted token is not String. -/
theorem tokenize_trailing_run_dropped_cex :
    isWordChar 'a' = true ∧ tokenize ['a'] = [] ∧
      (tokenize ['a']).getLast? ≠ some Token.String := by
  refine ⟨by decide, by rfl, by decide⟩

/-- C2 amended: a run of word characters still pending when the input
ends is discarded, never flushed: appending a trailing run of word
characters to any input leaves the emitted token list unchanged. -/
theorem tokenize_trailing_run_discarded (s w : List Char)
    (hw : ∀ c ∈ w, isWordChar c = true) :
    tokenize (s ++ w) = tokenize s :=
  tokenizeAux_append_word s w hw []

/-- Witness for C2's amended statement: `a(b` tokenizes like `a(`. -/
theorem tokenize_trailing_run_discarded_witness :
    (∀ c ∈ ['b'], isWordChar c = true) ∧
      tokenize (['a', '('] ++ ['b']) = tokenize ['a', '('] :=
  ⟨by decide, tokenize_trailing_run_discarded ['a', '('] ['b'] (by decide)⟩

/-- The character buffered but not yet emitted in a scanner state: a
single slash in `SlashFound`, nothing in every other state. -/
def pendBuf (st : RCState) : List Char :=
  if st = RCState.SlashFound then ['/'] else []

theorem removeCommentsAux_append (xs : List Char) :
    ∀ (st : RCState) (ys : List Char),
      removeCommentsAux st (xs ++ ys) =
        removeCommentsAux st xs ++ removeCommentsAux (rcRun st xs) ys := by
  induction xs with
  | nil => intro st ys; simp [removeCommentsAux, rcRun]
  | cons c rest ih =>
    intro st ys
    simp [removeCommentsAux, rcRun, ih]

theorem rcRun_append (xs : List Char) :
    ∀ (st : RCState) (ys : List Char),
      rcRun st (xs ++ ys) = rcRun (rcRun st xs) ys := by
  induction xs with
  | nil => intro st ys; simp [rcRun]
  | cons c rest ih => intro st ys; simp [rcRun, ih]

/-- The only transition into `SlashFound` is a slash read in `Basic`. -/
theorem rcStep_into_slashFound (st : RCState) (c : Char)
    (h : (rcStep st c).1 = RCState.SlashFound) : st = RCState.Basic ∧ c = '/' := by
  cases st <;> (simp only [rcStep] at h; split_ifs at h <;> simp_all)

/-- The scanner's output is a subsequence of its buffered slash (if any)
followed by the input: every emitted character comes from the input in
order, except a slash buffered before this input began. -/
theorem removeCommentsAux_sublist (s : List Char) :
    ∀ st, List.Sublist (removeCommentsAux st s) (pendBuf st ++ s) := by
  induction s with
  | nil => intro st; simp [removeCommentsAux]
  | cons c rest ih =>
    intro st
    cases st with
    | Basic =>
      by_cases h : c = '/'
      · subst h
        simpa [removeCommentsAux, rcStep, pendBuf] using ih .SlashFound
      · simp only [removeCommentsAux, rcStep, if_neg h, pendBuf, List.nil_append]
        exact List.Sublist.cons₂ c (by simpa [pendBuf] using ih .Basic)
    | SlashFound =>
      by_cases h : c = '/'
      · subst h
        simp only [removeCommentsAux, rcStep, if_pos rfl, pendBuf, List.nil_append]
        exact List.Sublist.cons _ (List.Sublist.cons _ (by simpa [pendBuf] using ih .LineComment))
      · by_cases h2 : c = '*'
        · subst h2
          simp only [removeCommentsAux, rcStep, pendBuf]
          norm_num
          exact List.Sublist.cons _ (List.Sublist.cons _ (by simpa [pendBuf] using ih .BlockComment))
        · simp only [removeCommentsAux, rcStep, if_neg h, if_neg h2, pendBuf, List.nil_append]
          exact List.Sublist.cons₂ _ (List.Sublist.cons₂ _ (by simpa [pendBuf] using ih .Basic))
    | LineComment =>
      by_cases h : c = '\n' ∨ c = '\r'
      · simp only [removeCommentsAux, rcStep, if_pos h, pendBuf, List.nil_append]
        exact List.Sublist.cons _ (by simpa [pendBuf] using ih .Basic)
      · simp only [removeCommentsAux, rcStep, if_neg h, pendBuf, List.nil_append]
        exact List.Sublist.cons _ (by simpa [pendBuf] using ih .LineComment)
    | BlockComment =>
      by_cases h : c = '*'
      · simp only [removeCommentsAux, rcStep, if_pos h, pendBuf, List.nil_append]
        exact List.Sublist.cons _ (by simpa [pendBuf] using ih .StarFoundInComment)
      · simp only [removeCommentsAux, rcStep, if_neg h, pendBuf, List.nil_append]
        exact List.Sublist.cons _ (by simpa [pendBuf] using ih .BlockComment)
    | StarFoundInComment =>
      by_cases h : c = '/'
      · simp only [removeCommentsAux, rcStep, if_pos h, pendBuf, List.nil_append]
        exact List.Sublist.cons _ (by simpa [pendBuf] using ih .Basic)
      · by_cases h2 : c = '*'
        · simp only [removeCommentsAux, rcStep, if_neg h, if_pos h2, pendBuf, List.nil_append]
          exact List.Sublist.cons _ (by simpa [pendBuf] using ih .StarFoundInComment)
        · simp only [removeCommentsAux, rcStep, if_neg h, if_neg h2, pendBuf, List.nil_append]
          exact List.Sublist.cons _ (by simpa [pendBuf] using ih .BlockComment)

/-- On input containing no comment opener (no occurrence of the
two-character sequences of slash-slash or slash-star), the scanner
started in `Basic` reproduces the input exactly, up to the slash still
buffered at end of input when the scan ends in `SlashFound`. -/
theorem removeCommentsAux_clean (n : Nat) :
    ∀ s : List Char, s.length ≤ n →
      ¬ (['/', '/'] <:+: s) → ¬ (['/', '*'] <:+: s) →
      removeCommentsAux .Basic s ++ pendBuf (rcRun .Basic s) = s := by
  induction n with
  | zero =>
    intro s hs _ _
    have h : s = [] := List.length_eq_zero.mp (Nat.le_zero.mp hs)
    subst h
    simp [removeCommentsAux, rcRun, pendBuf]
  | succ n ih =>
    intro s hs h1 h2
    match s with
    | [] => simp [removeCommentsAux, rcRun, pendBuf]
    | c :: rest =>
      by_cases hc : c = '/'
      · subst hc
        match rest with
        | [] => simp [removeCommentsAux, rcRun, rcStep, pendBuf]
        | d :: rest2 =>
          have hd1 : d ≠ '/' := fun h => h1 (by subst h; exact ⟨[], rest2, rfl⟩)
          have hd2 : d ≠ '*' := fun h => h2 (by subst h; exact ⟨[], rest2, rfl⟩)
          have hir := ih rest2 (by simp only [List.length_cons] at hs ⊢; omega)
            (fun h => h1 (List.infix_cons (List.infix_cons h)))
            (fun h => h2 (List.infix_cons (List.infix_cons h)))
          have ha : removeCommentsAux .Basic ('/' :: d :: rest2) =
              '/' :: d :: removeCommentsAux .Basic rest2 := by
            simp [removeCommentsAux, rcStep, hd1, hd2]
          have hb : rcRun .Basic ('/' :: d :: rest2) = rcRun .Basic rest2 := by
            simp [rcRun, rcStep, hd1, hd2]
          rw [ha, hb, List.cons_append, List.cons_append, hir]
      · have hir := ih rest (by simp only [List.length_cons] at hs ⊢; omega)
          (fun h => h1 (List.infix_cons h))
          (fun h => h2 (List.infix_cons h))
        have ha : removeCommentsAux .Basic (c :: rest) =
            c :: removeCommentsAux .Basic rest := by
          simp [removeCommentsAux, rcStep, hc]
        have hb : rcRun .Basic (c :: rest) = rcRun .Basic rest := by
          simp [rcRun, rcStep, hc]
        rw [ha, hb, List.cons_append, hir]

/-- A scan ending in `SlashFound` means the input ends in a slash that
the scanner has buffered but will never emit: the output coincides with
the output for the input without its final character. -/
theorem rcRun_slashFound_spec (s : List Char)
    (h : rcRun .Basic s = .SlashFound) :
    s.getLast? = some '/' ∧ remove_comments s = remove_comments s.dropLast := by
  have hne : s ≠ [] := by
    intro he
    rw [he] at h
    simp [rcRun] at h
  have hsplit : s.dropLast ++ [s.getLast hne] = s := List.dropLast_append_getLast hne
  have hrun : (rcStep (rcRun .Basic s.dropLast) (s.getLast hne)).1 = .SlashFound := by
    rw [← hsplit] at h
    rw [rcRun_append] at h
    simpa [rcRun] using h
  obtain ⟨hb, hc⟩ := rcStep_into_slashFound _ _ hrun
  refine ⟨?_, ?_⟩
  · rw [List.getLast?_eq_getLast_of_ne_nil hne, hc]
  · conv_lhs => rw [remove_comments, ← hsplit, removeCommentsAux_append, hb, hc]
    simp [removeCommentsAux, rcStep, remove_comments]

/-- C10: for every input whose scan ends in the `SlashFound` state (its
final character is a slash read outside any comment and outside any
comment-forming context), `remove_comments` drops that trailing slash:
the buffered slash is only emitted when a following character arrives,
so at end of input it is silently lost, and the output equals the output
for the input without its last character. -/
theorem trailing_slash_dropped (s : List Char)
    (h : rcRun .Basic s = .SlashFound) :
    s.getLast? = some '/' ∧ remove_comments s = remove_comments s.dropLast :=
  rcRun_slashFound_spec s h

/-- Witness for C10: input "a/" ends the scan in `SlashFound`; its last
character is the slash and the output equals that of "a", namely "a". -/
theorem trailing_slash_dropped_witness :
    rcRun .Basic ['a', '/'] = .SlashFound ∧
      (['a', '/'].getLast? = some '/' ∧
        remove_comments ['a', '/'] = remove_comments (['a', '/'].dropLast)) :=
  ⟨by decide, trailing_slash_dropped ['a', '/'] (by decide)⟩

/-- C3 counterexample: the input "/" contains no occurrence of
slash-slash or slash-star, yet `remove_comments` does not return it
unchanged: the lone trailing slash is buffered in `SlashFound` and lost
at end of input, so the output is empty. -/
theorem remove_comments_clean_cex :
    ¬ (['/', '/'] <:+: ['/']) ∧ ¬ (['/', '*'] <:+: ['/']) ∧
      remove_comments ['/'] ≠ ['/'] ∧ remove_comments ['/'] = [] := by
  refine ⟨by decide, by decide, by decide, by rfl⟩

/-- C3 amended: comment stripping is the identity on already-clean text
that does not end in a slash: for every input with no occurrence of the
two-character sequences slash-slash or slash-star whose last character
is not a slash, `remove_comments` returns the input unchanged.  (A clean
input ending in a slash loses exactly that final buffered slash.) -/
theorem remove_comments_clean_id (s : List Char)
    (h1 : ¬ (['/', '/'] <:+: s)) (h2 : ¬ (['/', '*'] <:+: s))
    (h3 : s.getLast? ≠ some '/') :
    remove_comments s = s := by
  have hm := removeCommentsAux_clean s.length s le_rfl h1 h2
  by_cases hsf : rcRun .Basic s = .SlashFound
  · exact absurd (rcRun_slashFound_spec s hsf).1 h3
  · rw [pendBuf, if_neg hsf, List.append_nil] at hm
    exact hm

/-- Witness for C3's amended statement: "a/b" is clean, does not end in
a slash, and is returned unchanged. -/
theorem remove_comments_clean_id_witness :
    (¬ (['/', '/'] <:+: ['a', '/', 'b']) ∧ ¬ (['/', '*'] <:+: ['a', '/', 'b']) ∧
        ['a', '/', 'b'].getLast? ≠ some '/') ∧
      remove_comments ['a', '/', 'b'] = ['a', '/', 'b'] :=
  ⟨⟨by decide, by decide, by decide⟩,
    remove_comments_clean_id ['a', '/', 'b'] (by decide) (by decide) (by decide)⟩

/-- C5 counterexample: in the input "a/" the final slash is not part of
any removed comment span (the input contains no comment opener at all),
yet it does not appear in the output: `remove_comments` returns just
"a".  Slash preservation fails for a trailing buffered slash. -/
theorem remove_comments_slash_cex :
    ¬ (['/', '/'] <:+: ['a', '/']) ∧ ¬ (['/', '*'] <:+: ['a', '/']) ∧
      remove_comments ['a', '/'] = ['a'] ∧ '/' ∉ remove_comments ['a', '/'] := by
  refine ⟨by decide, by decide, by rfl, by decide⟩

/-- C5 amended: for every input the output never grows — it is in fact a
subsequence of the input, so each emitted character (slashes included)
appears unchanged and in order — and every slash not part of a removed
comment span is preserved except a final slash left buffered at end of
input, which is dropped: on input with no comment opener at all, the
output together with the buffered trailing slash (if the scan ends in
`SlashFound`) is exactly the input. -/
theorem remove_comments_shrinks_and_preserves (s : List Char) :
    (remove_comments s).length ≤ s.length ∧
      List.Sublist (remove_comments s) s ∧
      (¬ (['/', '/'] <:+: s) → ¬ (['/', '*'] <:+: s) →
        remove_comments s ++ pendBuf (rcRun .Basic s) = s) := by
  have hsub : List.Sublist (remove_comments s) s := by
    simpa [pendBuf, remove_comments] using removeCommentsAux_sublist s .Basic
  exact ⟨hsub.length_le, hsub,
    fun h1 h2 => removeCommentsAux_clean s.length s le_rfl h1 h2⟩

/-- Witness for C5's amended statement at the clean input "a/b/": the
output "a/b" plus the buffered trailing slash restores the input. -/
theorem remove_comments_shrinks_and_preserves_witness :
    (¬ (['/', '/'] <:+: ['a', '/', 'b', '/']) ∧ ¬ (['/', '*'] <:+: ['a', '/', 'b', '/'])) ∧
      remove_comments ['a', '/', 'b', '/'] ++ pendBuf (rcRun .Basic ['a', '/', 'b', '/']) =
        ['a', '/', 'b', '/'] :=
  ⟨⟨by decide, by decide⟩,
    (remove_comments_shrinks_and_preserves ['a', '/', 'b', '/']).2.2 (by decide) (by decide)⟩

/-- C7: `remove_comments` on the reference input strips the line comment
up to (and including) the newline, strips the block comment at the first
star-slash of the consecutive closers (so the following star-slash
passes through literally), strips the second line comment, and returns
exactly the five characters a, star, slash, b, d. -/
theorem remove_comments_literal_example :
    remove_comments "// aaaaa\na/*   \n\n/**/*/b//c\nd".toList = "a*/bd".toList := by rfl
